import Mathlib

/-!
# Verification of the `RegSet` multi-pattern search module of rust-onig

Shallow embedding of `src/onig/src/regset.rs`: a set of compiled patterns
searched in one pass, with three priority ("lead") policies, capture
extraction for the winning pattern, and add/replace mutation.

The single-pattern engine (Oniguruma, consumed through `onig_sys`) is not
part of the repository sources under verification; following the spec §6
it is treated as an external collaborator with the contract
`compile(pattern, options) -> CompiledPattern | Error` and
`search(CompiledPattern, buffer, from, to) -> Option MatchRegion`.
Definitions that stand in for engine behaviour carry a
`Modelled from the spec:` note.  Text buffers are modelled as `List Char`
with positions being indices into that list (the concrete inputs used by
the spec are ASCII, where byte offsets and character indices coincide).
-/

set_option autoImplicit false

namespace Onig

/-- A single pattern match attempt, as delivered by the engine:
match start, match end, and the group-span region (index 0 is the whole
match).  Modelled from the spec: `MatchAttempt` of §3 /
`match_in_range` of §6. -/
structure MatchResult where
  start : Nat
  stop : Nat
  region : List (Option (Nat × Nat))
  deriving DecidableEq, Repr

/-- Modelled from the spec: an opaque compiled pattern (`CompiledPattern`,
§6).  `search buf lo hi` attempts the pattern leftmost match whose start
lies in the scan window `[lo, hi)` of `buf`.  The two proof fields are the
engine region contract of §4.3: the region has one entry per declared
capture group plus one, and entry 0 is the whole match. -/
structure CompiledPattern where
  ngroups : Nat
  search : List Char → Nat → Nat → Option MatchResult
  region_len : ∀ buf lo hi m, search buf lo hi = some m →
    m.region.length = ngroups + 1
  region_zero : ∀ buf lo hi m, search buf lo hi = some m →
    m.region.head? = some (some (m.start, m.stop))

/-- Compilation options bit set (`RegexOptions`); its interpretation is the
engine concern, the wrapper only stores and forwards it. -/
abbrev RegexOptions := Nat

/-- Search-time options bit set (`SearchOptions`); forwarded to the engine,
whose spec-level contract (§6 `match_in_range`) does not depend on it. -/
abbrev SearchOptions := Nat

/-- The wrapper error type as constructed in `regset.rs`: engine
diagnostics are wrapped via `Error::from_code` (compile failures carry the
engine code), and the bounds failure of `replace_pattern` is built with
`Error::custom` from a message string. -/
inductive Error where
  | compile (code : Int)
  | custom (msg : String)
  deriving DecidableEq, Repr

/-- Search priority policy (`RegSetLead` in `regset.rs`). -/
inductive RegSetLead where
  | Position
  | Regex
  | PriorityToRegexOrder
  deriving DecidableEq, Repr

/-- The per-slot match attempts of one search, in slot-index order starting
at index `k`: slot `k + i` contributes `(k + i, m)` when its pattern
search over `[lo, hi)` returns `some m`, nothing otherwise.  Modelled from
the spec: §4.2, "every slot CompiledPattern is asked to locate its own
leftmost match" over the scan range. -/
def attemptsFrom (slots : List CompiledPattern) (k : Nat)
    (buf : List Char) (lo hi : Nat) : List (Nat × MatchResult) :=
  match slots with
  | [] => []
  | p :: rest =>
    match p.search buf lo hi with
    | some m => (k, m) :: attemptsFrom rest (k + 1) buf lo hi
    | none => attemptsFrom rest (k + 1) buf lo hi

/-- Position-lead reduction: smallest match start wins, and on a tie the
attempt that comes first in the list (the smaller slot index) wins.
Modelled from the spec: the Position policy of §4.2. -/
def positionResolve : List (Nat × MatchResult) → Option (Nat × Nat)
  | [] => none
  | (i, m) :: rest =>
    match positionResolve rest with
    | none => some (i, m.start)
    | some (j, s) => if m.start ≤ s then some (i, m.start) else some (j, s)

/-- Reduce the per-slot attempts to one winner under the selected lead
policy.  Modelled from the spec: §4.2 — `Regex` takes the first slot in
index order that matched at all; `Position` and `PriorityToRegexOrder`
both take the smallest start with the smallest index as tie-break. -/
def resolve (lead : RegSetLead) (atts : List (Nat × MatchResult)) :
    Option (Nat × Nat) :=
  match lead with
  | .Regex => atts.head?.map (fun a => (a.1, a.2.start))
  | .Position => positionResolve atts
  | .PriorityToRegexOrder => positionResolve atts

/-- A compiled set of patterns (`RegSet` in `regset.rs`): the ordered slots
(the engine-side `OnigRegSet` behind `raw`) plus the stored compilation
options used by later `add_pattern`/`replace_pattern` calls. -/
structure RegSet where
  slots : List CompiledPattern
  options : RegexOptions

/-- `RegSet::len`: the number of regexes in the set
(`onig_regset_number_of_regex`). -/
def RegSet.len (s : RegSet) : Nat :=
  s.slots.length

/-- `RegSet::is_empty`. -/
def RegSet.is_empty (s : RegSet) : Bool :=
  s.len == 0

/-- Modelled from the spec: `onig_regset_search` (§4.2 resolver over the
per-slot attempts).  Returns the winning slot index (`≥ 0`) and writes the
winning match position; `-1` signals that no slot matched. -/
def onig_regset_search (slots : List CompiledPattern) (buf : List Char)
    (lo hi : Nat) (lead : RegSetLead) : Int × Nat :=
  match resolve lead (attemptsFrom slots 0 buf lo hi) with
  | some (i, pos) => ((i : Int), pos)
  | none => (-1, 0)

/-- `RegSet::search_with_encoding`: run the engine set search over the
byte window `[lo, hi)` and map a non-negative result to
`Some (index, position)` and a negative one to `None`. -/
def RegSet.search_with_encoding (s : RegSet) (buf : List Char)
    (lo hi : Nat) (lead : RegSetLead) (opts : SearchOptions) :
    Option (Nat × Nat) :=
  let r := onig_regset_search s.slots buf lo hi lead
  if 0 ≤ r.1 then some (r.1.toNat, r.2) else none

/-- `RegSet::find_with_options`: search the whole buffer. -/
def RegSet.find_with_options (s : RegSet) (buf : List Char)
    (lead : RegSetLead) (opts : SearchOptions) : Option (Nat × Nat) :=
  s.search_with_encoding buf 0 buf.length lead opts

/-- `RegSet::find`: Position lead, no search options. -/
def RegSet.find (s : RegSet) (buf : List Char) : Option (Nat × Nat) :=
  s.find_with_options buf .Position 0

/-- Slot `j` of set `s` produced match `m` when searching the whole of
`buf` (the per-slot attempt underlying `find`/`find_with_options`). -/
def SlotMatch (s : RegSet) (buf : List Char) (j : Nat) (m : MatchResult) :
    Prop :=
  ∃ p, s.slots.get? j = some p ∧ p.search buf 0 buf.length = some m

/-! ## Concrete engine patterns for the spec examples

The pattern engine is external (§6); the spec examples use the simple
patterns `\d+`, `[a-z]+`, `[A-Z]+` and `(\d{4})-(\d{2})-(\d{2})`, whose
leftmost-match behaviour is implemented here directly as instances of the
engine contract. -/

/-- Length of the maximal prefix of `cs` whose characters satisfy `pred`. -/
def runLen (pred : Char → Bool) : List Char → Nat
  | [] => 0
  | c :: cs => if pred c then runLen pred cs + 1 else 0

/-- Leftmost maximal run of `pred`-characters starting at a position in
`[pos, hi)` of the remaining buffer: returns `(start, end)`. -/
def firstRunAux (pred : Char → Bool) : List Char → Nat → Nat → Option (Nat × Nat)
  | [], _, _ => none
  | c :: cs, pos, hi =>
    if pos < hi then
      if pred c then some (pos, pos + 1 + runLen pred cs)
      else firstRunAux pred cs (pos + 1) hi
    else none

/-- Leftmost maximal run of `pred`-characters in `buf` whose start lies in
the scan window `[lo, hi)` (the match itself may extend past `hi`). -/
def firstRun (pred : Char → Bool) (buf : List Char) (lo hi : Nat) :
    Option (Nat × Nat) :=
  firstRunAux pred (buf.drop lo) lo hi

/-- Engine search for a `[class]+` pattern: leftmost run of `pred`
characters; no capture groups, region is the whole match only. -/
def classPlusSearch (pred : Char → Bool) (buf : List Char) (lo hi : Nat) :
    Option MatchResult :=
  (firstRun pred buf lo hi).map fun se => ⟨se.1, se.2, [some se]⟩

/-- A compiled `[class]+` pattern (e.g. `\d+`, `[a-z]+`, `[A-Z]+`). -/
def classPlus (pred : Char → Bool) : CompiledPattern where
  ngroups := 0
  search := classPlusSearch pred
  region_len := by
    intro buf lo hi m h
    unfold classPlusSearch at h
    cases hfr : firstRun pred buf lo hi with
    | none => rw [hfr] at h; cases h
    | some se => rw [hfr] at h; cases h; rfl
  region_zero := by
    intro buf lo hi m h
    unfold classPlusSearch at h
    cases hfr : firstRun pred buf lo hi with
    | none => rw [hfr] at h; cases h
    | some se => rw [hfr] at h; cases h; rfl

/-- The pattern `\d+`. -/
def digitsPlus : CompiledPattern := classPlus Char.isDigit

/-- The pattern `[a-z]+`. -/
def lowersPlus : CompiledPattern := classPlus fun c => 'a' ≤ c && c ≤ 'z'

/-- The pattern `[A-Z]+`. -/
def uppersPlus : CompiledPattern := classPlus fun c => 'A' ≤ c && c ≤ 'Z'

/-- The spec three-pattern example set `[\d+, [a-z]+, [A-Z]+]`. -/
def demoSet3 : RegSet := ⟨[digitsPlus, lowersPlus, uppersPlus], 0⟩

/-- The spec two-pattern example set `[\d+, [a-z]+]`. -/
def demoSet2 : RegSet := ⟨[digitsPlus, lowersPlus], 0⟩

/-- Does a `(\d{4})-(\d{2})-(\d{2})` match start at `pos` in `buf`? -/
def dateAt (buf : List Char) (pos : Nat) : Bool :=
  decide (pos + 10 ≤ buf.length) &&
  ((List.range 4).all fun k => (buf.getD (pos + k) ' ').isDigit) &&
  (buf.getD (pos + 4) ' ' == '-') &&
  ((List.range 2).all fun k => (buf.getD (pos + 5 + k) ' ').isDigit) &&
  (buf.getD (pos + 7) ' ' == '-') &&
  ((List.range 2).all fun k => (buf.getD (pos + 8 + k) ' ').isDigit)

/-- Leftmost date-pattern match start in the window `[lo, hi)`. -/
def dateFind (buf : List Char) (lo hi : Nat) : Option Nat :=
  (List.range' lo (hi - lo)).find? (dateAt buf)

/-- Group-span region of a date match starting at `s`: whole match plus
the three capture groups. -/
def dateRegion (s : Nat) : List (Option (Nat × Nat)) :=
  [some (s, s + 10), some (s, s + 4), some (s + 5, s + 7), some (s + 8, s + 10)]

/-- Engine search for `(\d{4})-(\d{2})-(\d{2})`. -/
def dateSearch (buf : List Char) (lo hi : Nat) : Option MatchResult :=
  (dateFind buf lo hi).map fun s => ⟨s, s + 10, dateRegion s⟩

/-- The compiled pattern `(\d{4})-(\d{2})-(\d{2})`: three capture groups. -/
def datePattern : CompiledPattern where
  ngroups := 3
  search := dateSearch
  region_len := by
    intro buf lo hi m h
    unfold dateSearch at h
    cases hdf : dateFind buf lo hi with
    | none => rw [hdf] at h; cases h
    | some s => rw [hdf] at h; cases h; rfl
  region_zero := by
    intro buf lo hi m h
    unfold dateSearch at h
    cases hdf : dateFind buf lo hi with
    | none => rw [hdf] at h; cases h
    | some s => rw [hdf] at h; cases h; rfl

/-! ## Mutation: `add_pattern`, `replace_pattern`, bulk construction

Compilation is the external engine (`Regex::with_options` in the
wrapper); it is passed in as a function `compile` whose failures are the
engine diagnostic codes, wrapped by the Rust code via `Error::from_code`
(modelled by `Error.compile`). -/

/-- The `Error::custom` message built by `RegSet::replace_pattern` for an
out-of-bounds index. -/
def oobMsg (index regset_len : Nat) : String :=
  "Index " ++ toString index ++ " is out of bounds for RegSet with " ++
    toString regset_len ++ " regexes"

/-- `RegSet::add_pattern`: compile the pattern with the set stored
options; on success append it (ownership transferred, `mem::forget`) and
return its index, the length before the call; on failure return the error
with the set untouched.  The engine-side `onig_regset_add` is modelled as
succeeding (the spec §4.1 contract; all patterns share the set
options and encoding). -/
def RegSet.add_pattern (compile : String → RegexOptions → Except Int CompiledPattern)
    (s : RegSet) (pattern : String) : Except Error Nat × RegSet :=
  match compile pattern s.options with
  | .error e => (.error (.compile e), s)
  | .ok new_regex =>
    let new_index := s.len
    (.ok new_index, ⟨s.slots ++ [new_regex], s.options⟩)

/-- `RegSet::replace_pattern`: bounds check first (`Error::custom` with the
offending index and current length in the message), then compile with the
stored options; on success swap the slot (`onig_regset_replace`, modelled
as succeeding after the bounds check, per §4.1 atomic swap); on compile
failure return the error with the set untouched. -/
def RegSet.replace_pattern (compile : String → RegexOptions → Except Int CompiledPattern)
    (s : RegSet) (index : Nat) (pattern : String) : Except Error Unit × RegSet :=
  let regset_len := s.len
  if index ≥ regset_len then
    (.error (.custom (oobMsg index regset_len)), s)
  else
    match compile pattern s.options with
    | .error e => (.error (.compile e), s)
    | .ok new_regex => (.ok (), ⟨s.slots.set index new_regex, s.options⟩)

/-- Ledger of live engine-side compiled artifacts, to make the release
obligations of bulk construction observable: `live` holds the ids of
currently allocated patterns, `next` the next fresh id.  Modelled from the
spec: the `release(pattern)` exactly-once contract of §6. -/
structure Alloc where
  live : List Nat
  next : Nat
  deriving DecidableEq, Repr

/-- Every live id is below the allocation counter. -/
def Alloc.Fresh (a : Alloc) : Prop :=
  ∀ x ∈ a.live, x < a.next

/-- Release one artifact (`onig_free` via `Regex` drop). -/
def releaseAlloc (id : Nat) (a : Alloc) : Alloc :=
  ⟨a.live.erase id, a.next⟩

/-- The compilation loop of `RegSet::with_options`: compile the patterns
in order into a vector, allocating a fresh id per compiled artifact; a
failed compilation allocates nothing and aborts the loop, and the vector
is then dropped on the way out, releasing every artifact compiled in this
call before the failure is returned. -/
def compileAll (compile : String → RegexOptions → Except Int CompiledPattern)
    (patterns : List String) (options : RegexOptions) (a : Alloc) :
    Except Int (List (CompiledPattern × Nat)) × Alloc :=
  match patterns with
  | [] => (.ok [], a)
  | p :: rest =>
    match compile p options with
    | .error e => (.error e, a)
    | .ok r =>
      match compileAll compile rest options ⟨a.live ++ [a.next], a.next + 1⟩ with
      | (.error e, a2) => (.error e, releaseAlloc a.next a2)
      | (.ok rs, a2) => (.ok ((r, a.next) :: rs), a2)

/-- `RegSet::empty_with_options`: zero slots, stores the options
(`onig_regset_new` modelled as succeeding, §4.1 "always succeeds"). -/
def RegSet.empty_with_options (options : RegexOptions) (a : Alloc) :
    Except Error RegSet × Alloc :=
  (.ok ⟨[], options⟩, a)

/-- `RegSet::with_options`: bulk construction.  Empty list delegates to
`empty_with_options`; otherwise all patterns are compiled in order (first
failure aborts, releasing everything compiled in this call) and the set is
built from the compiled artifacts in declaration order. -/
def RegSet.with_options (compile : String → RegexOptions → Except Int CompiledPattern)
    (patterns : List String) (options : RegexOptions) (a : Alloc) :
    Except Error RegSet × Alloc :=
  if patterns.isEmpty then RegSet.empty_with_options options a
  else
    match compileAll compile patterns options a with
    | (.error e, a1) => (.error (.compile e), a1)
    | (.ok regexes, a1) => (.ok ⟨regexes.map Prod.fst, options⟩, a1)

/-- `RegSet::new`: default options. -/
def RegSet.new (compile : String → RegexOptions → Except Int CompiledPattern)
    (patterns : List String) (a : Alloc) : Except Error RegSet × Alloc :=
  RegSet.with_options compile patterns 0 a

/-! ## Capture extraction -/

/-- A `Captures` value (`Captures::new(text, region, match_pos)`): the
searched text, the match position, and the cloned group-span region
(`Region::clone_from_raw`) — an owned copy, not a view into the engine
per-slot buffer. -/
structure Captures where
  text : List Char
  offset : Nat
  region : List (Option (Nat × Nat))
  deriving DecidableEq, Repr

/-- `RegSet::captures_with_options`: run `find_with_options`; on a win,
read the winning slot region buffer (`onig_regset_get_region`, modelled
from the spec as the winning slot attempt region for this search — the
`none` fallthroughs model the wrapper null-pointer check) and clone it
into a `Captures`. -/
def RegSet.captures_with_options (s : RegSet) (buf : List Char)
    (lead : RegSetLead) (opts : SearchOptions) : Option (Nat × Captures) :=
  match s.find_with_options buf lead opts with
  | none => none
  | some ip =>
    match s.slots.get? ip.1 with
    | none => none
    | some p =>
      match p.search buf 0 buf.length with
      | none => none
      | some m => some (ip.1, ⟨buf, ip.2, m.region⟩)

/-- `RegSet::captures`: Position lead, no search options. -/
def RegSet.captures (s : RegSet) (buf : List Char) : Option (Nat × Captures) :=
  s.captures_with_options buf .Position 0

/-! ## Stateful view of the per-slot region buffers

Modelled from the spec (§5): each slot compiled pattern retains one
mutable "last match region" buffer that every search against that slot
overwrites.  `RegSetState` makes those buffers explicit so that the
ownership claims about `Captures` (copy vs. live view) are statable. -/

/-- A `RegSet` together with the engine per-slot region buffers. -/
structure RegSetState where
  set : RegSet
  regions : List (Option (List (Option (Nat × Nat))))

/-- Fresh state: no slot has matched yet. -/
def RegSetState.init (s : RegSet) : RegSetState :=
  ⟨s, s.slots.map fun _ => none⟩

/-- One search call: returns what `find_with_options` returns and
overwrites every slot region buffer with that slot attempt for this
search (`none` when the slot did not match). -/
def searchStep (st : RegSetState) (buf : List Char) (lead : RegSetLead)
    (opts : SearchOptions) : Option (Nat × Nat) × RegSetState :=
  (st.set.find_with_options buf lead opts,
   ⟨st.set, st.set.slots.map fun p => (p.search buf 0 buf.length).map MatchResult.region⟩)

/-- One captures call: a search step, then — on a win — the winning slot
(just overwritten) region buffer is cloned into the returned `Captures`. -/
def capturesStep (st : RegSetState) (buf : List Char) (lead : RegSetLead)
    (opts : SearchOptions) : Option (Nat × Captures) × RegSetState :=
  let st1 := (searchStep st buf lead opts).2
  match st.set.find_with_options buf lead opts with
  | none => (none, st1)
  | some ip =>
    match st1.regions.get? ip.1 with
    | some (some r) => (some (ip.1, ⟨buf, ip.2, r⟩), st1)
    | _ => (none, st1)

/-- One `add_pattern` call on the stateful view: the engine adds a fresh,
not-yet-matched region buffer for the new slot. -/
def addStep (compile : String → RegexOptions → Except Int CompiledPattern)
    (st : RegSetState) (pattern : String) : Except Error Nat × RegSetState :=
  let rs := RegSet.add_pattern compile st.set pattern
  match rs.1 with
  | .error e => (.error e, ⟨rs.2, st.regions⟩)
  | .ok idx => (.ok idx, ⟨rs.2, st.regions ++ [none]⟩)

/-- One `replace_pattern` call on the stateful view (`onig_regset_replace`
keeps the slot region buffer). -/
def replaceStep (compile : String → RegexOptions → Except Int CompiledPattern)
    (st : RegSetState) (index : Nat) (pattern : String) :
    Except Error Unit × RegSetState :=
  let rs := RegSet.replace_pattern compile st.set index pattern
  (rs.1, ⟨rs.2, st.regions⟩)

/-- Compile function used by concrete construction examples: two-character
pattern strings compile (to `\d+`), anything else fails with engine
code 5. -/
def lenTwoCompile : String → RegexOptions → Except Int CompiledPattern :=
  fun p _ => bif p.length == 2 then .ok digitsPlus else .error 5

/-- Concrete stateful example: a fresh one-slot set holding the date
pattern. -/
def dateState : RegSetState :=
  RegSetState.init ⟨[datePattern], 0⟩

/-- The buffer searched in the capture-ownership example. -/
def dateBuf : List Char :=
  "2023-12-25".toList

/-- The `Captures` value the capture-ownership example returns. -/
def dateCaps : Captures :=
  ⟨dateBuf, 0, dateRegion 0⟩

/-! ## Lemmas about the attempts list and the resolver -/

theorem mem_attemptsFrom {slots : List CompiledPattern} {k : Nat}
    {buf : List Char} {lo hi : Nat} {j : Nat} {m : MatchResult} :
    (j, m) ∈ attemptsFrom slots k buf lo hi ↔
      ∃ i p, j = k + i ∧ slots.get? i = some p ∧ p.search buf lo hi = some m := by
  induction slots generalizing k with
  | nil =>
    constructor
    · intro hx; cases hx
    · rintro ⟨i, q, _, hget, _⟩; simp at hget
  | cons p rest ih =>
    cases hs : p.search buf lo hi with
    | none =>
      simp only [attemptsFrom, hs]
      rw [ih]
      constructor
      · rintro ⟨i, q, rfl, hget, hsearch⟩
        exact ⟨i + 1, q, by omega, by simpa using hget, hsearch⟩
      · rintro ⟨i, q, rfl, hget, hsearch⟩
        cases i with
        | zero =>
          simp only [List.get?_cons_zero, Option.some.injEq] at hget
          subst hget
          rw [hs] at hsearch
          cases hsearch
        | succ i' =>
          exact ⟨i', q, by omega, by simpa using hget, hsearch⟩
    | some m0 =>
      simp only [attemptsFrom, hs, List.mem_cons]
      constructor
      · rintro (hx | hx)
        · obtain ⟨h1, h2⟩ := Prod.mk.injEq .. ▸ hx
          injection hx with h1 h2
          subst h1; subst h2
          exact ⟨0, p, by omega, by simp, hs⟩
        · obtain ⟨i, q, rfl, hget, hsearch⟩ := ih.mp hx
          exact ⟨i + 1, q, by omega, by simpa using hget, hsearch⟩
      · rintro ⟨i, q, rfl, hget, hsearch⟩
        cases i with
        | zero =>
          simp only [List.get?_cons_zero, Option.some.injEq] at hget
          subst hget
          rw [hs] at hsearch
          injection hsearch with hm
          subst hm
          left
          simp
        | succ i' =>
          right
          exact ih.mpr ⟨i', q, by omega, by simpa using hget, hsearch⟩

theorem attemptsFrom_eq_nil {slots : List CompiledPattern} {k : Nat}
    {buf : List Char} {lo hi : Nat} :
    attemptsFrom slots k buf lo hi = [] ↔
      ∀ i p, slots.get? i = some p → p.search buf lo hi = none := by
  induction slots generalizing k with
  | nil =>
    constructor
    · intro _ i q hget; simp at hget
    · intro _; rfl
  | cons p rest ih =>
    cases hs : p.search buf lo hi with
    | none =>
      simp only [attemptsFrom, hs]
      rw [ih]
      constructor
      · intro h i q hget
        cases i with
        | zero =>
          simp only [List.get?_cons_zero, Option.some.injEq] at hget
          subst hget
          exact hs
        | succ i' => exact h i' q (by simpa using hget)
      · intro h i q hget
        exact h (i + 1) q (by simpa using hget)
    | some m0 =>
      simp only [attemptsFrom, hs]
      constructor
      · intro h; cases h
      · intro h
        have := h 0 p (by simp)
        rw [hs] at this
        cases this

theorem attemptsFrom_lb {slots : List CompiledPattern} {k : Nat}
    {buf : List Char} {lo hi : Nat} :
    ∀ x ∈ attemptsFrom slots k buf lo hi, k ≤ x.1 := by
  induction slots generalizing k with
  | nil => intro x hx; cases hx
  | cons p rest ih =>
    intro x hx
    cases hs : p.search buf lo hi <;> simp only [attemptsFrom, hs] at hx
    · exact Nat.le_of_succ_le (ih x hx)
    · rcases List.mem_cons.mp hx with h | h
      · subst h; exact Nat.le_refl k
      · exact Nat.le_of_succ_le (ih x h)

theorem attemptsFrom_sorted {slots : List CompiledPattern} {k : Nat}
    {buf : List Char} {lo hi : Nat} :
    (attemptsFrom slots k buf lo hi).Pairwise (fun a b => a.1 < b.1) := by
  induction slots generalizing k with
  | nil => exact List.Pairwise.nil
  | cons p rest ih =>
    cases hs : p.search buf lo hi <;> simp only [attemptsFrom, hs]
    · exact ih
    · exact List.Pairwise.cons (fun x hx => Nat.lt_of_succ_le (attemptsFrom_lb x hx)) ih

theorem positionResolve_eq_none_iff {l : List (Nat × MatchResult)} :
    positionResolve l = none ↔ l = [] := by
  cases l with
  | nil => simp [positionResolve]
  | cons a rest =>
    obtain ⟨i, m⟩ := a
    simp only [positionResolve]
    constructor
    · intro h
      cases hr : positionResolve rest with
      | none => rw [hr] at h; cases h
      | some v =>
        obtain ⟨j, s⟩ := v
        rw [hr] at h
        dsimp only at h
        by_cases hle : m.start ≤ s
        · rw [if_pos hle] at h; cases h
        · rw [if_neg hle] at h; cases h
    · intro h; cases h

/-- The Position-lead reduction picks the first attempt in the list that
achieves the overall minimal match start: everything before it starts
strictly later, everything after it starts no earlier. -/
theorem positionResolve_spec {l : List (Nat × MatchResult)} {i st : Nat}
    (h : positionResolve l = some (i, st)) :
    ∃ m pre post, l = pre ++ (i, m) :: post ∧ m.start = st ∧
      (∀ x ∈ pre, st < x.2.start) ∧ (∀ x ∈ post, st ≤ x.2.start) := by
  induction l generalizing i st with
  | nil => cases h
  | cons a rest ih =>
    obtain ⟨a1, a2⟩ := a
    simp only [positionResolve] at h
    cases hr : positionResolve rest with
    | none =>
      rw [hr] at h
      cases h
      have hrest : rest = [] := positionResolve_eq_none_iff.mp hr
      subst hrest
      exact ⟨a2, [], [], rfl, rfl, by simp, by simp⟩
    | some v =>
      obtain ⟨j, s⟩ := v
      rw [hr] at h
      dsimp only at h
      by_cases hle : a2.start ≤ s
      · rw [if_pos hle] at h
        cases h
        obtain ⟨m, pre, post, hl, hms, hpre, hpost⟩ := ih hr
        refine ⟨a2, [], rest, rfl, rfl, by simp, ?_⟩
        intro x hx
        rw [hl] at hx
        rcases List.mem_append.mp hx with hx | hx
        · exact le_trans hle (le_of_lt (hpre x hx))
        · rcases List.mem_cons.mp hx with rfl | hx
          · simpa [hms] using hle
          · exact le_trans hle (hpost x hx)
      · rw [if_neg hle] at h
        cases h
        obtain ⟨m, pre, post, hl, hms, hpre, hpost⟩ := ih hr
        refine ⟨m, (a1, a2) :: pre, post, by rw [hl]; rfl, hms, ?_, hpost⟩
        intro x hx
        rcases List.mem_cons.mp hx with rfl | hx
        · exact Nat.lt_of_not_le hle
        · exact hpre x hx

/-- The wrapper `search_with_encoding` is exactly the spec resolver
over the per-slot attempts (the `c_int` result code decodes losslessly). -/
theorem search_with_encoding_eq (s : RegSet) (buf : List Char)
    (lo hi : Nat) (lead : RegSetLead) (opts : SearchOptions) :
    s.search_with_encoding buf lo hi lead opts =
      resolve lead (attemptsFrom s.slots 0 buf lo hi) := by
  cases hr : resolve lead (attemptsFrom s.slots 0 buf lo hi) with
  | none => simp [RegSet.search_with_encoding, onig_regset_search, hr]
  | some v =>
    obtain ⟨i, pos⟩ := v
    simp [RegSet.search_with_encoding, onig_regset_search, hr]

/-- Whatever the lead policy, a reported winner `(i, st)` comes from an
actual match of slot `i` starting at `st`. -/
theorem find_winner {s : RegSet} {buf : List Char} {lead : RegSetLead}
    {opts : SearchOptions} {i st : Nat}
    (h : s.find_with_options buf lead opts = some (i, st)) :
    ∃ m, SlotMatch s buf i m ∧ m.start = st := by
  rw [RegSet.find_with_options, search_with_encoding_eq] at h
  have hmem : ∃ m, (i, m) ∈ attemptsFrom s.slots 0 buf 0 buf.length ∧
      m.start = st := by
    cases lead with
    | Regex =>
      simp only [resolve] at h
      cases htts : attemptsFrom s.slots 0 buf 0 buf.length with
      | nil => rw [htts] at h; cases h
      | cons a tail =>
        obtain ⟨a1, a2⟩ := a
        rw [htts] at h
        simp only [List.head?, Option.map, Option.some.injEq,
          Prod.mk.injEq] at h
        obtain ⟨rfl, rfl⟩ := h
        exact ⟨a2, by simp [htts], rfl⟩
    | Position =>
      simp only [resolve] at h
      obtain ⟨m, pre, post, hl, hms, _, _⟩ := positionResolve_spec h
      exact ⟨m, by rw [hl]; exact List.mem_append_right _ (List.mem_cons_self _ _), hms⟩
    | PriorityToRegexOrder =>
      simp only [resolve] at h
      obtain ⟨m, pre, post, hl, hms, _, _⟩ := positionResolve_spec h
      exact ⟨m, by rw [hl]; exact List.mem_append_right _ (List.mem_cons_self _ _), hms⟩
  obtain ⟨m, hmem, hst⟩ := hmem
  obtain ⟨i0, p, hi0, hget, hsearch⟩ := mem_attemptsFrom.mp hmem
  have hii : i0 = i := by omega
  subst hii
  exact ⟨m, ⟨p, hget, hsearch⟩, hst⟩

/-- Claim C1: under the Position lead — the policy `RegSet::find` uses —
the search returns a slot that actually matched, at that slot match
start; every matching slot match starts no earlier than the winner,
and a slot matching at the same (smallest) start has an index no smaller
than the winner.  The witness instantiates the spec example: the set
`[\d+, [a-z]+, [A-Z]+]` searched against `"hello123world"` wins with
slot 1 at start 0. -/
theorem position_lead_selects_smallest_start {s : RegSet} {buf : List Char}
    {opts : SearchOptions} {i st : Nat}
    (h : s.find_with_options buf .Position opts = some (i, st)) :
    (∃ m, SlotMatch s buf i m ∧ m.start = st) ∧
      ∀ j m, SlotMatch s buf j m →
        st ≤ m.start ∧ (m.start = st → i ≤ j) := by
  refine ⟨find_winner h, ?_⟩
  rw [RegSet.find_with_options, search_with_encoding_eq] at h
  simp only [resolve] at h
  obtain ⟨mw, pre, post, hl, hms, hpre, hpost⟩ := positionResolve_spec h
  intro j m hsm
  obtain ⟨p, hget, hsearch⟩ := hsm
  have hmem : (j, m) ∈ attemptsFrom s.slots 0 buf 0 buf.length :=
    mem_attemptsFrom.mpr ⟨j, p, by omega, hget, hsearch⟩
  have hsorted := @attemptsFrom_sorted s.slots 0 buf 0 buf.length
  rw [hl] at hmem hsorted
  obtain ⟨-, hmid, hord⟩ := List.pairwise_append.mp hsorted
  have hmid2 := (List.pairwise_cons.mp hmid).1
  rcases List.mem_append.mp hmem with hx | hx
  · have hp2 : st < m.start := hpre _ hx
    exact ⟨le_of_lt hp2, fun heq => by omega⟩
  · rcases List.mem_cons.mp hx with heq | hx
    · injection heq with h1 h2
      subst h1; subst h2
      exact ⟨le_of_eq hms.symm, fun _ => le_refl _⟩
    · exact ⟨hpost _ hx, fun _ => le_of_lt (hmid2 _ hx)⟩

/-- Witness for C1: the spec Position-policy example. -/
theorem position_lead_selects_smallest_start_witness :
    demoSet3.find "hello123world".toList = some (1, 0) ∧
      ∀ j m, SlotMatch demoSet3 "hello123world".toList j m →
        0 ≤ m.start ∧ (m.start = 0 → 1 ≤ j) := by
  refine ⟨by decide, ?_⟩
  exact (@position_lead_selects_smallest_start demoSet3 "hello123world".toList
    0 1 0 (by decide)).2

/-- Claim C2: `find_with_options` (hence `find`) returns `None` exactly
when no slot pattern matched anywhere in the scan range — in the spec
engine contract (§6) the per-pattern search has no failure channel, so
there is no engine failure to swallow and the wrapper own failure paths
all return their errors — and the empty set always returns `None`. -/
theorem find_none_iff_no_slot_matches (s : RegSet) (buf : List Char)
    (lead : RegSetLead) (opts : SearchOptions) :
    (s.find_with_options buf lead opts = none ↔
      ∀ j p, s.slots.get? j = some p → p.search buf 0 buf.length = none) ∧
      (s.slots = [] → s.find_with_options buf lead opts = none) ∧
      s.find buf = s.find_with_options buf .Position 0 := by
  have hkey : s.find_with_options buf lead opts = none ↔
      attemptsFrom s.slots 0 buf 0 buf.length = [] := by
    rw [RegSet.find_with_options, search_with_encoding_eq]
    cases lead with
    | Regex =>
      simp only [resolve]
      rw [Option.map_eq_none']
      exact List.head?_eq_none_iff
    | Position => exact positionResolve_eq_none_iff
    | PriorityToRegexOrder => exact positionResolve_eq_none_iff
  refine ⟨hkey.trans attemptsFrom_eq_nil, ?_, rfl⟩
  intro hnil
  refine hkey.mpr ?_
  rw [hnil]
  rfl

/-- Witness for C2: the spec no-match example and the empty set. -/
theorem find_none_iff_no_slot_matches_witness :
    demoSet3.find "!@#$%".toList = none ∧
      (RegSet.mk [] 0).find "abc".toList = none := by
  constructor
  · exact (find_none_iff_no_slot_matches demoSet3 "!@#$%".toList
      .Position 0).1.mpr ((attemptsFrom_eq_nil (k := 0)).mp (by decide))
  · exact (find_none_iff_no_slot_matches ⟨[], 0⟩ "abc".toList
      .Position 0).2.1 rfl

/-- Claim C7: under the Regex lead, the winner is the first slot in index
order that matched at all — every lower-indexed slot produced no match in
the range, regardless of match positions.  The witness instantiates the
spec example: `[\d+, [a-z]+]` against `"hello123"` wins with slot 0 (at
start 5) even though slot 1 matches at start 0. -/
theorem regex_lead_first_matching_slot {s : RegSet} {buf : List Char}
    {opts : SearchOptions} {i st : Nat}
    (h : s.find_with_options buf .Regex opts = some (i, st)) :
    (∃ m, SlotMatch s buf i m ∧ m.start = st) ∧
      ∀ j, j < i → ∀ m, ¬ SlotMatch s buf j m := by
  refine ⟨find_winner h, ?_⟩
  rw [RegSet.find_with_options, search_with_encoding_eq] at h
  simp only [resolve] at h
  cases htts : attemptsFrom s.slots 0 buf 0 buf.length with
  | nil => rw [htts] at h; cases h
  | cons a tail =>
    obtain ⟨a1, a2⟩ := a
    rw [htts] at h
    simp only [List.head?, Option.map, Option.some.injEq, Prod.mk.injEq] at h
    obtain ⟨rfl, rfl⟩ := h
    intro j hj m hsm
    obtain ⟨p, hget, hsearch⟩ := hsm
    have hmem : (j, m) ∈ attemptsFrom s.slots 0 buf 0 buf.length :=
      mem_attemptsFrom.mpr ⟨j, p, by omega, hget, hsearch⟩
    have hsorted := @attemptsFrom_sorted s.slots 0 buf 0 buf.length
    rw [htts] at hmem hsorted
    rcases List.mem_cons.mp hmem with heq | hx
    · injection heq with h1 h2
      omega
    · have := (List.pairwise_cons.mp hsorted).1 _ hx
      omega

/-- Witness for C7: the spec Regex-policy example. -/
theorem regex_lead_first_matching_slot_witness :
    demoSet2.find_with_options "hello123".toList .Regex 0 = some (0, 5) ∧
      ∀ j, j < 0 → ∀ m, ¬ SlotMatch demoSet2 "hello123".toList j m := by
  refine ⟨by decide, ?_⟩
  exact (@regex_lead_first_matching_slot demoSet2 "hello123".toList
    0 0 5 (by decide)).2

/-! ## Mutation claims -/

theorem replace_pattern_error_eq
    {compile : String → RegexOptions → Except Int CompiledPattern}
    {s : RegSet} {index : Nat} {pattern : String} {e : Int}
    (hlt : index < s.len) (he : compile pattern s.options = .error e) :
    RegSet.replace_pattern compile s index pattern =
      (.error (.compile e), s) := by
  have hnot : ¬ index ≥ s.len := by omega
  simp only [RegSet.replace_pattern, if_neg hnot, he]

theorem replace_pattern_ok_eq
    {compile : String → RegexOptions → Except Int CompiledPattern}
    {s : RegSet} {index : Nat} {pattern : String} {r : CompiledPattern}
    (hlt : index < s.len) (hr : compile pattern s.options = .ok r) :
    RegSet.replace_pattern compile s index pattern =
      (.ok (), ⟨s.slots.set index r, s.options⟩) := by
  have hnot : ¬ index ≥ s.len := by omega
  simp only [RegSet.replace_pattern, if_neg hnot, hr]

theorem replace_pattern_oob_eq
    {compile : String → RegexOptions → Except Int CompiledPattern}
    {s : RegSet} {index : Nat} {pattern : String}
    (hge : index ≥ s.len) :
    RegSet.replace_pattern compile s index pattern =
      (.error (.custom (oobMsg index s.len)), s) := by
  simp only [RegSet.replace_pattern, if_pos hge]

/-- Claim C3: for an in-bounds index, if compilation of the new pattern
fails then `replace_pattern` returns that compile error and the set is
completely unchanged (the old slot still matches as before: every search
is unaffected); and whether it succeeds or fails, the set length and
every other slot are unchanged. -/
theorem replace_pattern_frame
    {compile : String → RegexOptions → Except Int CompiledPattern}
    {s : RegSet} {index : Nat} {pattern : String}
    (h : index < s.len) :
    (∀ e, compile pattern s.options = .error e →
      RegSet.replace_pattern compile s index pattern =
        (.error (.compile e), s)) ∧
      (RegSet.replace_pattern compile s index pattern).2.len = s.len ∧
      (∀ j, j ≠ index →
        (RegSet.replace_pattern compile s index pattern).2.slots.get? j =
          s.slots.get? j) ∧
      ∀ e buf lead o, compile pattern s.options = .error e →
        (RegSet.replace_pattern compile s index pattern).2.find_with_options
            buf lead o =
          s.find_with_options buf lead o := by
  refine ⟨fun e he => replace_pattern_error_eq h he, ?_, ?_, ?_⟩
  · cases hc : compile pattern s.options with
    | error e => rw [replace_pattern_error_eq h hc]
    | ok r =>
      rw [replace_pattern_ok_eq h hc]
      simp [RegSet.len]
  · intro j hj
    cases hc : compile pattern s.options with
    | error e => rw [replace_pattern_error_eq h hc]
    | ok r =>
      rw [replace_pattern_ok_eq h hc]
      exact List.get?_set_ne r s.slots (Ne.symm hj)
  · intro e buf lead o he
    rw [replace_pattern_error_eq h he]

/-- Witness for C3: replacing slot 0 of `[\d+, [a-z]+]` with a pattern
that fails to compile returns the compile error and leaves the set — and
its search behaviour — untouched. -/
theorem replace_pattern_frame_witness :
    RegSet.replace_pattern (fun _ _ => .error 42) demoSet2 0 "[" =
        (.error (.compile 42), demoSet2) ∧
      (RegSet.replace_pattern (fun _ _ => .error 42) demoSet2 0 "[").2.len =
        demoSet2.len := by
  have h := @replace_pattern_frame (fun _ _ => .error 42) demoSet2 0 "[" (by decide)
  exact ⟨h.1 42 rfl, h.2.1⟩

/-- Claim C4: for an out-of-bounds index, `replace_pattern` fails with the
`Error::custom` bounds error built from the offending index and the
current length — a kind distinct from any compile error — the compile
function is never consulted (any two compile functions give the same
outcome), and the set is returned unchanged. -/
theorem replace_pattern_out_of_bounds
    {compile : String → RegexOptions → Except Int CompiledPattern}
    {s : RegSet} {index : Nat} {pattern : String}
    (h : s.len ≤ index) :
    RegSet.replace_pattern compile s index pattern =
        (.error (.custom (oobMsg index s.len)), s) ∧
      (∀ c, Error.custom (oobMsg index s.len) ≠ Error.compile c) ∧
      ∀ compile2 : String → RegexOptions → Except Int CompiledPattern,
        RegSet.replace_pattern compile2 s index pattern =
          RegSet.replace_pattern compile s index pattern := by
  refine ⟨replace_pattern_oob_eq h, ?_, ?_⟩
  · intro c hc
    cases hc
  · intro compile2
    rw [replace_pattern_oob_eq h, replace_pattern_oob_eq h]

/-- Witness for C4: the spec example — `replace_pattern(2, ...)` on a
2-element set. -/
theorem replace_pattern_out_of_bounds_witness :
    RegSet.replace_pattern (fun _ _ => .error 7) demoSet2 2 "[A-Z]+" =
        (.error (.custom (oobMsg 2 2)), demoSet2) ∧
      (∀ c, Error.custom (oobMsg 2 2) ≠ Error.compile c) := by
  have h := @replace_pattern_out_of_bounds (fun _ _ => .error 7) demoSet2 2
    "[A-Z]+" (by decide)
  exact ⟨h.1, h.2.1⟩

theorem add_pattern_error_eq
    {compile : String → RegexOptions → Except Int CompiledPattern}
    {s : RegSet} {pattern : String} {e : Int}
    (he : compile pattern s.options = .error e) :
    RegSet.add_pattern compile s pattern = (.error (.compile e), s) := by
  simp only [RegSet.add_pattern, he]

theorem add_pattern_ok_eq
    {compile : String → RegexOptions → Except Int CompiledPattern}
    {s : RegSet} {pattern : String} {r : CompiledPattern}
    (hr : compile pattern s.options = .ok r) :
    RegSet.add_pattern compile s pattern =
      (.ok s.len, ⟨s.slots ++ [r], s.options⟩) := by
  simp only [RegSet.add_pattern, hr]

/-- Claim C5: `add_pattern` compiles with the options stored in the set;
on success it returns the pre-call length as the new index, the length
grows by exactly one, the compiled pattern sits in the new last slot and
every existing slot is untouched; on compile failure the error is
returned and the set is unchanged. -/
theorem add_pattern_appends_or_leaves_unchanged
    (compile : String → RegexOptions → Except Int CompiledPattern)
    (s : RegSet) (pattern : String) :
    (∀ e, compile pattern s.options = .error e →
      RegSet.add_pattern compile s pattern = (.error (.compile e), s)) ∧
      ∀ r, compile pattern s.options = .ok r →
        RegSet.add_pattern compile s pattern =
            (.ok s.len, ⟨s.slots ++ [r], s.options⟩) ∧
          (RegSet.add_pattern compile s pattern).2.len = s.len + 1 ∧
          (RegSet.add_pattern compile s pattern).2.slots.get? s.len = some r ∧
          ∀ j, j < s.len →
            (RegSet.add_pattern compile s pattern).2.slots.get? j =
              s.slots.get? j := by
  refine ⟨fun e he => add_pattern_error_eq he, fun r hr => ?_⟩
  refine ⟨add_pattern_ok_eq hr, ?_, ?_, ?_⟩
  · rw [add_pattern_ok_eq hr]
    simp [RegSet.len]
  · rw [add_pattern_ok_eq hr]
    exact List.get?_concat_length s.slots r
  · intro j hj
    rw [add_pattern_ok_eq hr]
    exact List.get?_append hj

/-- Witness for C5: adding to an empty set returns index 0 and a
one-element set; a failing compilation leaves the empty set empty. -/
theorem add_pattern_appends_or_leaves_unchanged_witness :
    RegSet.add_pattern (fun _ _ => .ok digitsPlus) ⟨[], 0⟩ "d" =
        (.ok 0, ⟨[digitsPlus], 0⟩) ∧
      RegSet.add_pattern (fun _ _ => .error 9) ⟨[], 0⟩ "[" =
        (.error (.compile 9), ⟨[], 0⟩) := by
  constructor
  · exact ((add_pattern_appends_or_leaves_unchanged
      (fun _ _ => .ok digitsPlus) ⟨[], 0⟩ "d").2 digitsPlus rfl).1
  · exact (add_pattern_appends_or_leaves_unchanged
      (fun _ _ => .error 9) ⟨[], 0⟩ "[").1 9 rfl

/-! ## Bulk-construction claims -/

theorem compileAll_error_live
    {compile : String → RegexOptions → Except Int CompiledPattern}
    {options : RegexOptions} :
    ∀ {patterns : List String} {a : Alloc} {e : Int} {a1 : Alloc},
      a.Fresh → compileAll compile patterns options a = (.error e, a1) →
      a1.live = a.live := by
  intro patterns
  induction patterns with
  | nil =>
    intro a e a1 _ h
    simp only [compileAll] at h
    cases h
  | cons p rest ih =>
    intro a e a1 hfresh h
    simp only [compileAll] at h
    cases hc : compile p options with
    | error e0 =>
      rw [hc] at h
      dsimp only at h
      cases h
      rfl
    | ok r =>
      rw [hc] at h
      dsimp only at h
      cases hrec : compileAll compile rest options ⟨a.live ++ [a.next], a.next + 1⟩ with
      | mk res a2 =>
        rw [hrec] at h
        cases res with
        | error e2 =>
          dsimp only at h
          cases h
          have hfresh1 : Alloc.Fresh ⟨a.live ++ [a.next], a.next + 1⟩ := by
            intro x hx
            rcases List.mem_append.mp hx with hx | hx
            · exact Nat.lt_succ_of_lt (hfresh x hx)
            · rw [List.mem_singleton.mp hx]
              exact Nat.lt_succ_self _
          have h2 := ih hfresh1 hrec
          have hnotmem : a.next ∉ a.live :=
            fun hmem => absurd (hfresh _ hmem) (lt_irrefl _)
          simp only [releaseAlloc]
          rw [h2]
          dsimp only
          rw [List.erase_append_right _ hnotmem, List.erase_cons_head,
            List.append_nil]
        | ok rs =>
          dsimp only at h
          cases h

theorem compileAll_first_error
    {compile : String → RegexOptions → Except Int CompiledPattern}
    {options : RegexOptions} :
    ∀ {patterns : List String} {k : Nat} {p : String} {e : Int} {a : Alloc},
      patterns.get? k = some p → compile p options = .error e →
      (∀ j q, j < k → patterns.get? j = some q →
        ∃ r, compile q options = .ok r) →
      ∃ a1, compileAll compile patterns options a = (.error e, a1) := by
  intro patterns
  induction patterns with
  | nil => intro k p e a hget _ _; simp at hget
  | cons p0 rest ih =>
    intro k p e a hget he hall
    cases k with
    | zero =>
      simp only [List.get?_cons_zero, Option.some.injEq] at hget
      subst hget
      refine ⟨a, ?_⟩
      simp only [compileAll, he]
    | succ k2 =>
      obtain ⟨r0, hr0⟩ := hall 0 p0 (Nat.succ_pos _) rfl
      have hget2 : rest.get? k2 = some p := by simpa using hget
      have hall2 : ∀ j q, j < k2 → rest.get? j = some q →
          ∃ r, compile q options = .ok r :=
        fun j q hj hq => hall (j + 1) q (by omega) (by simpa using hq)
      obtain ⟨a1, hrec⟩ := ih (a := ⟨a.live ++ [a.next], a.next + 1⟩)
        hget2 he hall2
      refine ⟨releaseAlloc a.next a1, ?_⟩
      simp only [compileAll, hr0, hrec]

theorem compileAll_all_ok
    {compile : String → RegexOptions → Except Int CompiledPattern}
    {options : RegexOptions} :
    ∀ {patterns : List String} {a : Alloc},
      (∀ j q, patterns.get? j = some q → ∃ r, compile q options = .ok r) →
      ∃ rs a1, compileAll compile patterns options a = (.ok rs, a1) ∧
        rs.length = patterns.length ∧
        ∀ i p2, patterns.get? i = some p2 →
          ∃ r, compile p2 options = .ok r ∧
            (rs.map Prod.fst).get? i = some r := by
  intro patterns
  induction patterns with
  | nil =>
    intro a _
    exact ⟨[], a, rfl, rfl, fun i p2 hget => by simp at hget⟩
  | cons p0 rest ih =>
    intro a hall
    obtain ⟨r0, hr0⟩ := hall 0 p0 rfl
    obtain ⟨rs, a1, hrec, hlen, hcont⟩ :=
      ih (a := ⟨a.live ++ [a.next], a.next + 1⟩)
        (fun j q hq => hall (j + 1) q (by simpa using hq))
    refine ⟨(r0, a.next) :: rs, a1, ?_, ?_, ?_⟩
    · simp only [compileAll, hr0, hrec]
    · simp [hlen]
    · intro i p2 hget
      cases i with
      | zero =>
        simp only [List.get?_cons_zero, Option.some.injEq] at hget
        subst hget
        exact ⟨r0, hr0, rfl⟩
      | succ i2 =>
        obtain ⟨r, hr, hrs⟩ := hcont i2 p2 (by simpa using hget)
        exact ⟨r, hr, by simpa using hrs⟩

/-- Claim C6: bulk construction is all-or-nothing.  If some pattern fails
to compile (all earlier ones compiling), `with_options` returns that
pattern compile error and every artifact allocated during the call has
been released (the ledger live set is restored), with no set handed to
the caller; if every pattern compiles, the result is a set of exactly
`patterns.length` slots holding the compiled patterns in declaration
order. -/
theorem with_options_all_or_nothing
    (compile : String → RegexOptions → Except Int CompiledPattern)
    (patterns : List String) (options : RegexOptions) (a : Alloc)
    (hfresh : a.Fresh) :
    (∀ k p e, patterns.get? k = some p → compile p options = .error e →
      (∀ j q, j < k → patterns.get? j = some q →
        ∃ r, compile q options = .ok r) →
      ∃ a1, RegSet.with_options compile patterns options a =
          (.error (.compile e), a1) ∧ a1.live = a.live) ∧
      ((∀ j q, patterns.get? j = some q → ∃ r, compile q options = .ok r) →
        ∃ s a1, RegSet.with_options compile patterns options a =
            (.ok s, a1) ∧
          s.len = patterns.length ∧ s.options = options ∧
          ∀ i p, patterns.get? i = some p →
            ∃ r, compile p options = .ok r ∧ s.slots.get? i = some r) := by
  constructor
  · intro k p e hget he hall
    cases patterns with
    | nil => simp at hget
    | cons p0 rest =>
      obtain ⟨a1, hca⟩ := compileAll_first_error hget he hall
      refine ⟨a1, ?_, compileAll_error_live hfresh hca⟩
      simp [RegSet.with_options, hca]
  · cases patterns with
    | nil =>
      intro _
      exact ⟨⟨[], options⟩, a, rfl, rfl, rfl, fun i p hget => by simp at hget⟩
    | cons p0 rest =>
      intro hall
      obtain ⟨rs, a1, hca, hlen, hcont⟩ := compileAll_all_ok (a := a) hall
      refine ⟨⟨rs.map Prod.fst, options⟩, a1, ?_, ?_, rfl, hcont⟩
      · simp [RegSet.with_options, hca]
      · simp [RegSet.len, hlen]

/-- Witness for C6: building from `["ok", "bad"]` fails on the second
pattern with its compile error and releases the artifact compiled for the
first; no set is returned. -/
theorem with_options_all_or_nothing_witness :
    ∃ a1, RegSet.with_options lenTwoCompile ["ok", "bad"] 0 ⟨[], 0⟩ =
        (.error (.compile 5), a1) ∧ a1.live = ([] : List Nat) := by
  have hfr : Alloc.Fresh ⟨[], 0⟩ := fun x hx => absurd hx (List.not_mem_nil x)
  have hall : ∀ j q, j < 1 → (["ok", "bad"] : List String).get? j = some q →
      ∃ r, lenTwoCompile q 0 = .ok r := by
    intro j q hj hq
    cases j with
    | zero =>
      simp only [List.get?_cons_zero, Option.some.injEq] at hq
      subst hq
      exact ⟨digitsPlus, rfl⟩
    | succ n => exact absurd hj (by omega)
  exact (with_options_all_or_nothing lenTwoCompile ["ok", "bad"] 0 ⟨[], 0⟩
    hfr).1 1 "bad" 5 rfl rfl hall

/-! ## Capture claims -/

/-- Anatomy of a successful `captures_with_options` call: the winning slot
exists, its pattern matched, the returned `Captures` is built from the
searched text, the match start and a copy of the match region, and the
underlying `find_with_options` reports the same winner and start. -/
theorem captures_with_options_spec {s : RegSet} {buf : List Char}
    {lead : RegSetLead} {opts : SearchOptions} {i : Nat} {caps : Captures}
    (h : s.captures_with_options buf lead opts = some (i, caps)) :
    ∃ p m, s.slots.get? i = some p ∧ p.search buf 0 buf.length = some m ∧
      caps = ⟨buf, m.start, m.region⟩ ∧
      s.find_with_options buf lead opts = some (i, m.start) := by
  unfold RegSet.captures_with_options at h
  cases hf : s.find_with_options buf lead opts with
  | none => rw [hf] at h; cases h
  | some ip =>
    obtain ⟨i0, pos⟩ := ip
    rw [hf] at h
    dsimp only at h
    cases hp : s.slots.get? i0 with
    | none => rw [hp] at h; cases h
    | some p =>
      rw [hp] at h
      dsimp only at h
      cases hm : p.search buf 0 buf.length with
      | none => rw [hm] at h; cases h
      | some m =>
        rw [hm] at h
        dsimp only at h
        injection h with h1
        injection h1 with h2 h3
        subst h2
        subst h3
        obtain ⟨m2, ⟨p2, hget2, hsearch2⟩, hst2⟩ := find_winner hf
        rw [hp] at hget2
        injection hget2 with hpeq
        subst hpeq
        rw [hm] at hsearch2
        injection hsearch2 with hmeq
        subst hmeq
        exact ⟨p, m, hp, hm, by rw [hst2], by simp only [hf, hst2]⟩

/-- Claim C8: a successful `captures`/`captures_with_options` call returns
a capture sequence of length one plus the winning pattern declared
group count, whose entry 0 is the winning match whole span, and whose
winner index and match start agree with `find_with_options` under the same
policy and options. -/
theorem captures_shape_agrees_with_find {s : RegSet} {buf : List Char}
    {lead : RegSetLead} {opts : SearchOptions} {i : Nat} {caps : Captures}
    (h : s.captures_with_options buf lead opts = some (i, caps)) :
    ∃ p m, s.slots.get? i = some p ∧ p.search buf 0 buf.length = some m ∧
      caps.region.length = p.ngroups + 1 ∧
      caps.region.head? = some (some (m.start, m.stop)) ∧
      s.find_with_options buf lead opts = some (i, caps.offset) ∧
      caps.offset = m.start := by
  obtain ⟨p, m, hp, hm, hcaps, hf⟩ := captures_with_options_spec h
  subst hcaps
  exact ⟨p, m, hp, hm, p.region_len _ _ _ _ hm, p.region_zero _ _ _ _ hm,
    hf, rfl⟩

/-- Witness for C8: the spec capture round-trip — the date pattern on
`"2023-12-25"` yields group spans for the whole match, `"2023"`, `"12"`
and `"25"`. -/
theorem captures_shape_agrees_with_find_witness :
    (RegSet.mk [datePattern] 0).captures "2023-12-25".toList =
        some (0, ⟨"2023-12-25".toList, 0, dateRegion 0⟩) ∧
      ∃ p m, (RegSet.mk [datePattern] 0).slots.get? 0 = some p ∧
        p.search "2023-12-25".toList 0 "2023-12-25".toList.length = some m ∧
        (⟨"2023-12-25".toList, 0, dateRegion 0⟩ : Captures).region.length =
          p.ngroups + 1 ∧
        (⟨"2023-12-25".toList, 0, dateRegion 0⟩ : Captures).region.head? =
          some (some (m.start, m.stop)) ∧
        (RegSet.mk [datePattern] 0).find_with_options "2023-12-25".toList
            .Position 0 =
          some (0, (⟨"2023-12-25".toList, 0, dateRegion 0⟩ : Captures).offset) ∧
        (⟨"2023-12-25".toList, 0, dateRegion 0⟩ : Captures).offset =
          m.start := by
  exact ⟨by decide, captures_shape_agrees_with_find (by decide)⟩

/-- Claim C9 (exhibiting the hazard): every search overwrites the
per-slot match-region buffers, the shared mutable state that makes the
source unconditional `unsafe impl Sync for RegSet` unsound — two
consecutive searches on the same set leave observably different region
buffers, so unguarded concurrent searches race on them. -/
theorem search_overwrites_region_buffers :
    ∃ st : RegSetState, ∃ buf1 buf2 : List Char,
      ((searchStep ((searchStep st buf1 .Position 0).2) buf2
          .Position 0).2).regions ≠
        ((searchStep st buf1 .Position 0).2).regions := by
  refine ⟨RegSetState.init ⟨[digitsPlus], 0⟩, "a1".toList, "bb22".toList, ?_⟩
  decide

theorem capturesStep_fst (st : RegSetState) (buf : List Char)
    (lead : RegSetLead) (opts : SearchOptions) :
    (capturesStep st buf lead opts).1 =
      st.set.captures_with_options buf lead opts := by
  simp only [capturesStep, searchStep, RegSet.captures_with_options]
  cases hf : st.set.find_with_options buf lead opts with
  | none => rfl
  | some ip =>
    dsimp only
    rw [List.get?_map]
    cases hp : st.set.slots.get? ip.1 with
    | none => rfl
    | some p =>
      dsimp only [Option.map]
      cases hm : p.search buf 0 buf.length with
      | none => rfl
      | some m => rfl

theorem capturesStep_snd (st : RegSetState) (buf : List Char)
    (lead : RegSetLead) (opts : SearchOptions) :
    (capturesStep st buf lead opts).2 = (searchStep st buf lead opts).2 := by
  simp only [capturesStep]
  cases hf : st.set.find_with_options buf lead opts with
  | none => rfl
  | some ip =>
    dsimp only
    cases hg : ((searchStep st buf lead opts).2).regions.get? ip.1 with
    | none => rfl
    | some or =>
      cases or with
      | none => rfl
      | some r => rfl

/-- Claim C10: the `Captures` returned by a captures call owns a copy of
the winning slot group spans, cloned out of the engine per-slot region
buffer at return time: the copy equals the region the slot buffer held
at capture time, and a subsequent search overwrites that buffer with the
new attempt — while `add_pattern` and `replace_pattern` steps leave it in
place — without the cloned spans being anything but the original match
region. -/
theorem captures_region_is_owned_copy {st : RegSetState} {buf1 : List Char}
    {lead : RegSetLead} {opts : SearchOptions} {i : Nat} {caps : Captures}
    (h : (capturesStep st buf1 lead opts).1 = some (i, caps)) :
    ∃ p m, st.set.slots.get? i = some p ∧
      p.search buf1 0 buf1.length = some m ∧ caps.region = m.region ∧
      (capturesStep st buf1 lead opts).2.regions.get? i =
        some (some m.region) ∧
      (∀ buf2 lead2 opts2,
        (searchStep (capturesStep st buf1 lead opts).2 buf2
            lead2 opts2).2.regions.get? i =
          some ((p.search buf2 0 buf2.length).map MatchResult.region)) ∧
      (∀ compile pattern,
        (addStep compile (capturesStep st buf1 lead opts).2
            pattern).2.regions.get? i = some (some m.region)) ∧
      ∀ compile index pattern,
        (replaceStep compile (capturesStep st buf1 lead opts).2 index
            pattern).2.regions.get? i = some (some m.region) := by
  rw [capturesStep_fst] at h
  obtain ⟨p, m, hp, hm, hcaps, hf⟩ := captures_with_options_spec h
  have hi : i < st.set.slots.length := by
    rcases List.get?_eq_some.mp hp with ⟨hlt, -⟩
    exact hlt
  have hkey : ((searchStep st buf1 lead opts).2).regions.get? i =
      some (some m.region) := by
    simp only [searchStep]
    rw [List.get?_map, hp]
    simp [hm]
  refine ⟨p, m, hp, hm, by rw [hcaps], ?_, ?_, ?_, ?_⟩
  · rw [capturesStep_snd]
    exact hkey
  · intro buf2 lead2 opts2
    rw [capturesStep_snd]
    simp only [searchStep]
    rw [List.get?_map, hp]
    rfl
  · intro compile pattern
    rw [capturesStep_snd]
    simp only [addStep, searchStep]
    cases ha : (RegSet.add_pattern compile st.set pattern).1 with
    | error e =>
      dsimp only
      rw [List.get?_map, hp]
      simp [hm]
    | ok idx =>
      dsimp only
      rw [List.get?_append (by simpa using hi), List.get?_map, hp]
      simp [hm]
  · intro compile index pattern
    rw [capturesStep_snd]
    simp only [replaceStep, searchStep]
    rw [List.get?_map, hp]
    simp [hm]

/-- Witness for C10: capturing the date match, then searching
`"x2024-01-02"`, overwrites the slot region buffer with the new spans
while the returned `Captures` still holds the original ones. -/
theorem captures_region_is_owned_copy_witness :
    (capturesStep dateState dateBuf .Position 0).1 = some (0, dateCaps) ∧
      (∃ p m, dateState.set.slots.get? 0 = some p ∧
        p.search dateBuf 0 dateBuf.length = some m ∧
        dateCaps.region = m.region ∧
        (capturesStep dateState dateBuf .Position 0).2.regions.get? 0 =
          some (some m.region) ∧
        (∀ buf2 lead2 opts2,
          (searchStep (capturesStep dateState dateBuf .Position 0).2 buf2
              lead2 opts2).2.regions.get? 0 =
            some ((p.search buf2 0 buf2.length).map MatchResult.region)) ∧
        (∀ compile pattern,
          (addStep compile (capturesStep dateState dateBuf .Position 0).2
              pattern).2.regions.get? 0 = some (some m.region)) ∧
        ∀ compile index pattern,
          (replaceStep compile (capturesStep dateState dateBuf .Position 0).2
              index pattern).2.regions.get? 0 = some (some m.region)) ∧
      (searchStep (capturesStep dateState dateBuf .Position 0).2
          "x2024-01-02".toList .Position 0).2.regions.get? 0 =
        some (some (dateRegion 1)) ∧
      dateRegion 1 ≠ dateRegion 0 := by
  exact ⟨by decide, captures_region_is_owned_copy (by decide),
    by decide, by decide⟩

end Onig
